import Mathlib

/-!
Verification of the update-modrinth-deps dependency-update bot.

Shallow embedding of `main.py`.  Python text is modelled as `List Char`
(Python `str` is a sequence of unicode code points).  Each definition below
mirrors one Python function or code block; the doc comment names it.
-/

namespace UpdateModrinthDeps

/-- Model of Python's whitespace class (`str.strip`, regex `\s`) restricted to
the characters that can actually occur in the modelled texts. -/
def pyIsSpace (c : Char) : Bool :=
  c = ' ' || c = '\t' || c = '\n' || c = '\r' || c = '\x0b' || c = '\x0c' ||
  c = '\x1c' || c = '\x1d' || c = '\x1e' || c = '\x1f' || c = '\x85' || c = '\xa0'

/-- The characters Python's `str.splitlines` treats as line boundaries. -/
def isLineBreakChar (c : Char) : Bool :=
  c = '\n' || c = '\r' || c = '\x0b' || c = '\x0c' || c = '\x1c' || c = '\x1d' ||
  c = '\x1e' || c = '\x85' || c = '\u2028' || c = '\u2029'

/-- Python `str.strip()`: drop whitespace from both ends. -/
def pyStrip (l : List Char) : List Char :=
  ((l.dropWhile pyIsSpace).reverse.dropWhile pyIsSpace).reverse

/-- Python `str.rstrip()`: drop whitespace from the right end only. -/
def pyRstrip (l : List Char) : List Char :=
  (l.reverse.dropWhile pyIsSpace).reverse

/-- Python `text.splitlines(keepends=True)`, structurally: `acc` holds the
(reversed) characters of the line being scanned; a line break (with `\r\n`
kept as a single break) flushes the current line, and a final partial line
without terminator is flushed at the end. -/
def splitKeepAux : List Char → List Char → List (List Char)
  | acc, [] => if acc = [] then [] else [acc.reverse]
  | acc, [c] => if isLineBreakChar c then [acc.reverse ++ [c]] else [(c :: acc).reverse]
  | acc, c :: d :: rest =>
    if c = '\r' ∧ d = '\n' then (acc.reverse ++ [c, d]) :: splitKeepAux [] rest
    else if isLineBreakChar c then (acc.reverse ++ [c]) :: splitKeepAux [] (d :: rest)
    else splitKeepAux (c :: acc) (d :: rest)

/-- Python `text.splitlines(keepends=True)`: the list of lines of a text,
each still carrying its terminating line break (if any). -/
def splitKeep (text : List Char) : List (List Char) :=
  splitKeepAux [] text

theorem flatten_splitKeepAux :
    ∀ (acc l : List Char), (splitKeepAux acc l).flatten = acc.reverse ++ l := by
  intro acc l
  induction acc, l using splitKeepAux.induct <;>
    simp_all [splitKeepAux]
  · rw [if_neg (by tauto)]
    simp_all
  · rw [if_neg (by tauto)]
    simp_all

/-- Joining the lines of `splitlines(keepends=True)` recovers the text. -/
theorem join_splitKeep (l : List Char) : (splitKeep l).flatten = l := by
  rw [splitKeep, flatten_splitKeepAux]
  simp


/-- Strip a literal prefix: `some rest` when `pat` is a prefix of the list,
`none` otherwise.  Used to model anchored literal matching (`re.escape`d
patterns, `str.startswith`, `in`, `endswith`). -/
def stripPrefixChars : List Char → List Char → Option (List Char)
  | [], l => some l
  | _ :: _, [] => none
  | p :: ps, c :: cs => if p = c then stripPrefixChars ps cs else none

/-- Model of `re.compile(rf"^{re.escape(key)}\s*=").match(line)` from
`write_gradle_property` (main.py line 54): the line starts with the literal
key, followed by zero or more whitespace characters, followed by `=`. -/
def matchesKeyLine (key line : List Char) : Bool :=
  match stripPrefixChars key line with
  | some rest => (rest.dropWhile pyIsSpace).head? = some '='
  | none => false

/-- Number of (non-overlapping) occurrences of `"\r\n"`, i.e. Python
`text.count("\r\n")`.  Occurrences of this two-character pattern can never
overlap, so counting adjacent pairs is exact. -/
def countCRLF : List Char → Nat
  | [] => 0
  | [_] => 0
  | a :: b :: rest =>
    if a = '\r' ∧ b = '\n' then countCRLF rest + 1 else countCRLF (b :: rest)

/-- `detect_line_ending` (main.py lines 29-33): count `"\r\n"` occurrences,
subtract them from the `"\n"` count, and return `"\r\n"` only on a strict
majority. -/
def detect_line_ending (text : List Char) : List Char :=
  let crlf := countCRLF text
  let lf := text.count '\n' - crlf
  if crlf > lf then ['\r', '\n'] else ['\n']

/-- `write_gradle_property` (main.py lines 49-59) acting on the decoded file
text: split into lines keeping terminators, replace the first line matched by
`^{re.escape(key)}\s*=` with `f"{key}={new_value}{eol}"`, and join. -/
def write_gradle_property (key new_value text : List Char) : List Char :=
  let eol := detect_line_ending text
  let lines := splitKeep text
  match lines.findIdx? (fun line => matchesKeyLine key line) with
  | some i => (lines.set i (key ++ '=' :: (new_value ++ eol))).flatten
  | none => lines.flatten

/-- `true` iff the text contains the substring `"\r\n"`. -/
def hasCRLF : List Char → Bool
  | [] => false
  | [_] => false
  | a :: b :: rest => (a = '\r' && b = '\n') || hasCRLF (b :: rest)

/-- Remove the trailing line break (if any) from a single `splitKeep` line:
turns `splitlines(keepends=True)` output into `splitlines()` output. -/
def dropLineEnd (l : List Char) : List Char :=
  match l.reverse with
  | '\n' :: '\r' :: rest => rest.reverse
  | c :: rest => if isLineBreakChar c then rest.reverse else l
  | [] => []

/-- Python `text.splitlines()` (without keepends), as used by
`read_gradle_properties` (main.py line 39). -/
def splitNoKeep (text : List Char) : List (List Char) :=
  (splitKeep text).map dropLineEnd

/-- Python dict assignment `props[k] = v`: replace the value of an existing
key in place, otherwise append the new binding. -/
def upsert : List (List Char × List Char) → List Char → List Char →
    List (List Char × List Char)
  | [], k, v => [(k, v)]
  | (k', v') :: rest, k, v =>
    if k' = k then (k, v) :: rest else (k', v') :: upsert rest k v

/-- The body of the `for` loop of `read_gradle_properties` (main.py lines
39-45) for one raw line: strip it; skip blank lines and `#` comments; if it
contains `=`, split at the first `=` and store the stripped key and value. -/
def processLine (props : List (List Char × List Char)) (rawLine : List Char) :
    List (List Char × List Char) :=
  let line := pyStrip rawLine
  if line = [] then props
  else if line.head? = some '#' then props
  else if line.contains '=' then
    upsert props (pyStrip (line.takeWhile (fun c => c ≠ '=')))
      (pyStrip ((line.dropWhile (fun c => c ≠ '=')).drop 1))
  else props

/-- `read_gradle_properties` applied to a list of already-split lines. -/
def readPropsOf (lines : List (List Char)) : List (List Char × List Char) :=
  lines.foldl processLine []

/-- `read_gradle_properties` (main.py lines 36-46) on the file text: parse
every line, building the ordered key/value mapping. -/
def read_gradle_properties (text : List Char) : List (List Char × List Char) :=
  readPropsOf (splitNoKeep text)

/-- Python `pat in text` (substring test). -/
def hasSub (pat : List Char) : List Char → Bool
  | [] => (stripPrefixChars pat []).isSome
  | c :: rest => (stripPrefixChars pat (c :: rest)).isSome || hasSub pat rest

/-- Python `text.endswith(suffix)`. -/
def endsWithChars (suf l : List Char) : Bool :=
  (stripPrefixChars suf.reverse l.reverse).isSome

/-- `branch_exists_on_remote` (main.py lines 101-108) as a function of the
queried branch name and the captured `git ls-remote` stdout:
`f"{expected}\n" in stdout or stdout.rstrip().endswith(expected)` with
`expected = f"refs/heads/{branch}"`. -/
def branch_exists_on_remote (branch stdout : List Char) : Bool :=
  let expected := ("refs/heads/").toList ++ branch
  hasSub (expected ++ ['\n']) stdout || endsWithChars expected (pyRstrip stdout)

/-- A Modrinth version object, with the fields `process_dependency` reads.
`version_type` is optional because the code accesses it with
`v.get("version_type", "release")`. -/
structure ModVersion where
  id : String
  version_number : String
  version_type : Option String
deriving DecidableEq

/-- The `stability_rank` dict of `process_dependency` (main.py line 228):
`{"release": 0, "beta": 1, "alpha": 2}`, as a partial lookup. -/
def stability_rank (t : String) : Option Nat :=
  if t = "release" then some 0
  else if t = "beta" then some 1
  else if t = "alpha" then some 2
  else none

/-- `v.get("version_type", "release")`: the effective stability tier of a
candidate. -/
def tierOf (v : ModVersion) : String := v.version_type.getD "release"

/-- `current_value in (v["version_number"], v["id"])`: the pinned value
matches a candidate by either field. -/
def matchesPinned (pinned : String) (v : ModVersion) : Bool :=
  pinned = v.version_number || pinned = v.id

/-- The current-tier scan of `process_dependency` (main.py lines 229-233):
the tier of the first candidate the pinned value matches, defaulting to
`"release"` when no candidate matches. -/
def currentTypeOf (all : List ModVersion) (pinned : String) : String :=
  match all.find? (matchesPinned pinned) with
  | some v => tierOf v
  | none => "release"

/-- `max_rank = stability_rank.get(current_type, 0)` (main.py line 235). -/
def maxRankOf (all : List ModVersion) (pinned : String) : Nat :=
  (stability_rank (currentTypeOf all pinned)).getD 0

/-- The rank a candidate gets inside the stability filter (main.py line 239):
`stability_rank.get(v.get("version_type", "release"), 2)`; unrecognized tiers
get the least-stable rank 2. -/
def candRank (t : String) : Nat := (stability_rank t).getD 2

/-- The filtered candidate list `versions` of `process_dependency`
(main.py lines 236-240): candidates whose rank is at most `max_rank`. -/
def surviving (all : List ModVersion) (pinned : String) : List ModVersion :=
  all.filter (fun v => candRank (tierOf v) ≤ maxRankOf all pinned)

/-- The update-selection logic of `process_dependency` (main.py lines
221-251): `none` for an empty candidate list (line 222), an empty filtered
list (line 241), or a top filtered candidate already matching the pinned
value (line 249); otherwise the top filtered candidate. -/
def selectUpdate (all : List ModVersion) (pinned : String) : Option ModVersion :=
  if all.isEmpty then none
  else
    match surviving all pinned with
    | [] => none
    | latest :: _ => if matchesPinned pinned latest then none else some latest


/-- `get_version_value` (main.py lines 80-84): the string written to
gradle.properties for a chosen version. -/
def get_version_value (version : ModVersion) (use_id : Bool) : String :=
  if use_id then version.id else version.version_number

theorem mem_pyStrip {c : Char} {l : List Char} (h : c ∈ pyStrip l) : c ∈ l := by
  rw [pyStrip] at h
  rw [List.mem_reverse] at h
  have h2 := (List.dropWhile_sublist pyIsSpace).mem h
  rw [List.mem_reverse] at h2
  exact (List.dropWhile_sublist pyIsSpace).mem h2

theorem maxRankOf_le_candRank (all : List ModVersion) (pinned : String) :
    maxRankOf all pinned ≤ candRank (currentTypeOf all pinned) := by
  rw [maxRankOf, candRank]
  cases stability_rank (currentTypeOf all pinned) <;> simp

/-- C1: whenever the selector returns a candidate, its stability rank (with
unrecognized tiers ranked least-stable, 2) is at most the current pinned
value's tier rank; and in the concrete scenario where the pinned value is the
(first-matching) release-tier candidate `v` and all newer candidates (the
ones listed before `v`) are beta- or alpha-tier and do not themselves match
the pinned value, the selector returns `none`. -/
theorem selection_never_downgrades :
    (∀ (all : List ModVersion) (pinned : String) (v : ModVersion),
       selectUpdate all pinned = some v →
       candRank (tierOf v) ≤ candRank (currentTypeOf all pinned)) ∧
    (∀ (pre post : List ModVersion) (v : ModVersion) (pinned : String),
       tierOf v = "release" →
       matchesPinned pinned v = true →
       (∀ u ∈ pre, tierOf u = "beta" ∨ tierOf u = "alpha") →
       (∀ u ∈ pre, matchesPinned pinned u = false) →
       selectUpdate (pre ++ v :: post) pinned = none) := by
  constructor
  · intro all pinned v hsel
    rw [selectUpdate] at hsel
    by_cases hemp : all.isEmpty
    · simp [hemp] at hsel
    · simp only [hemp, if_false, Bool.false_eq_true] at hsel
      cases hs : surviving all pinned with
      | nil => rw [hs] at hsel; simp at hsel
      | cons c rest =>
        rw [hs] at hsel
        by_cases hm : matchesPinned pinned c
        · simp [hm] at hsel
        · simp only [hm, if_neg, Bool.false_eq_true, if_false] at hsel
          have hvc : v = c := by
            cases hsel
            rfl
          subst hvc
          have hmem : v ∈ surviving all pinned := by
            rw [hs]
            exact List.mem_cons_self v rest
          rw [surviving] at hmem
          rw [List.mem_filter] at hmem
          have := hmem.2
          simp only [decide_eq_true_eq] at this
          exact le_trans this (maxRankOf_le_candRank all pinned)
  · intro pre post v pinned htier hmatch htiers hnomatch
    have hfindpre : pre.find? (matchesPinned pinned) = none :=
      List.find?_eq_none.mpr (fun u hu => by simp [hnomatch u hu])
    have hcur : currentTypeOf (pre ++ v :: post) pinned = "release" := by
      rw [currentTypeOf, List.find?_append, hfindpre, Option.none_or,
        List.find?_cons, hmatch]
      simp [htier]
    have hrank : maxRankOf (pre ++ v :: post) pinned = 0 := by
      rw [maxRankOf, hcur, stability_rank]
      simp
    have hfilpre : pre.filter
        (fun u => candRank (tierOf u) ≤ maxRankOf (pre ++ v :: post) pinned) = [] := by
      rw [List.filter_eq_nil_iff]
      intro u hu
      rcases htiers u hu with h | h <;>
        simp [candRank, stability_rank, h, hrank]
    have hsurv : surviving (pre ++ v :: post) pinned =
        v :: post.filter
          (fun u => candRank (tierOf u) ≤ maxRankOf (pre ++ v :: post) pinned) := by
      rw [surviving, List.filter_append, hfilpre, List.nil_append, List.filter_cons,
        if_pos]
      simp [candRank, htier, stability_rank, hrank]
    rw [selectUpdate]
    have hne : (pre ++ v :: post).isEmpty = false := by
      simp
    rw [hne]
    simp only [Bool.false_eq_true, if_false]
    rw [hsurv]
    simp [hmatch]

/-- C1 witness: the selector on a concrete list with a newer beta and a
release matching the pinned value returns a candidate whose rank does not
exceed the current tier's rank, and the concrete beta-over-release scenario
returns `none`. -/
theorem selection_never_downgrades_witness :
    selectUpdate [⟨"b1", "2.0.0-beta.1", some "beta"⟩, ⟨"r1", "1.0.0", some "release"⟩]
        "1.0.0" = none :=
  selection_never_downgrades.2 [⟨"b1", "2.0.0-beta.1", some "beta"⟩] []
    ⟨"r1", "1.0.0", some "release"⟩ "1.0.0" (by decide) (by decide)
    (by decide) (by decide)


/-- C2 counterexample: when the candidate matching the pinned value carries
the unrecognized version_type "experimental", `max_rank =
stability_rank.get(current_type, 0)` is 0 (the MOST-stable rank), not the
worst rank 2 claimed, and the filter then rejects even the alpha candidate
instead of admitting candidates of every tier. -/
theorem unrecognized_current_tier_cex :
    currentTypeOf [⟨"a1", "2.0", some "alpha"⟩, ⟨"x1", "1.0", some "experimental"⟩]
        "1.0" = "experimental" ∧
    stability_rank "experimental" = none ∧
    maxRankOf [⟨"a1", "2.0", some "alpha"⟩, ⟨"x1", "1.0", some "experimental"⟩]
        "1.0" = 0 ∧
    maxRankOf [⟨"a1", "2.0", some "alpha"⟩, ⟨"x1", "1.0", some "experimental"⟩]
        "1.0" ≠ 2 ∧
    surviving [⟨"a1", "2.0", some "alpha"⟩, ⟨"x1", "1.0", some "experimental"⟩]
        "1.0" = [] := by
  refine ⟨by decide, by decide, by decide, by decide, by decide⟩

/-- C2 amended: an unrecognized tier on a FILTERED candidate is ranked
least-stable (2), so such candidates pass the filter only when the current
tier is exactly "alpha"; but an unrecognized tier on the CURRENT pinned
candidate defaults to the most-stable rank 0, so the filter then admits only
release-tier candidates (not candidates of every tier). -/
theorem unrecognized_tier_ranks :
    (∀ (all : List ModVersion) (pinned : String),
       stability_rank (currentTypeOf all pinned) = none →
       maxRankOf all pinned = 0 ∧
       surviving all pinned = all.filter (fun v => tierOf v = "release")) ∧
    (∀ (all : List ModVersion) (pinned : String) (v : ModVersion),
       v ∈ surviving all pinned →
       stability_rank (tierOf v) = none →
       currentTypeOf all pinned = "alpha") := by
  constructor
  · intro all pinned hnone
    have hmax : maxRankOf all pinned = 0 := by
      rw [maxRankOf, hnone]
      rfl
    refine ⟨hmax, ?_⟩
    rw [surviving]
    apply List.filter_congr
    intro v _
    rw [hmax]
    simp only [candRank, stability_rank]
    by_cases h1 : tierOf v = "release"
    · simp [h1]
    · by_cases h2 : tierOf v = "beta"
      · simp [h1, h2]
      · by_cases h3 : tierOf v = "alpha" <;> simp [h1, h2, h3]
  · intro all pinned v hmem hnone
    rw [surviving, List.mem_filter] at hmem
    have hle := hmem.2
    simp only [decide_eq_true_eq] at hle
    rw [candRank, hnone] at hle
    have hmax : 2 ≤ maxRankOf all pinned := hle
    rw [maxRankOf] at hmax
    rw [stability_rank] at hmax
    by_cases h1 : currentTypeOf all pinned = "release"
    · rw [if_pos h1] at hmax
      simp at hmax
    · rw [if_neg h1] at hmax
      by_cases h2 : currentTypeOf all pinned = "beta"
      · rw [if_pos h2] at hmax
        simp at hmax
      · rw [if_neg h2] at hmax
        by_cases h3 : currentTypeOf all pinned = "alpha"
        · exact h3
        · rw [if_neg h3] at hmax
          simp at hmax

/-- C2 amended witness: with a pinned beta whose tier is "alpha", an
unrecognized-tier candidate passes the filter and the current tier is
"alpha"; with an unrecognized current tier, only releases survive. -/
theorem unrecognized_tier_ranks_witness :
    (maxRankOf [⟨"x1", "1.0", some "custom"⟩] "1.0" = 0 ∧
      surviving [⟨"x1", "1.0", some "custom"⟩] "1.0" =
        List.filter (fun v => tierOf v = "release") [⟨"x1", "1.0", some "custom"⟩]) ∧
    currentTypeOf [⟨"a1", "1.0", some "alpha"⟩, ⟨"w1", "0.9", some "weird"⟩]
        "1.0" = "alpha" :=
  ⟨unrecognized_tier_ranks.1 [⟨"x1", "1.0", some "custom"⟩] "1.0" (by decide),
   unrecognized_tier_ranks.2 [⟨"a1", "1.0", some "alpha"⟩, ⟨"w1", "0.9", some "weird"⟩]
     "1.0" ⟨"w1", "0.9", some "weird"⟩ (by decide) (by decide)⟩

/-- C3: the selector returns `none` exactly when the candidate list is
empty, or no candidate survives the stability filter, or the pinned value
matches (by id or version string) the first surviving candidate; otherwise
it returns that first surviving candidate. -/
theorem selector_none_characterization :
    ∀ (all : List ModVersion) (pinned : String),
      (selectUpdate all pinned = none ↔
        all = [] ∨ surviving all pinned = [] ∨
        ∃ c rest, surviving all pinned = c :: rest ∧ matchesPinned pinned c = true) ∧
      (∀ c rest, surviving all pinned = c :: rest → matchesPinned pinned c = false →
        selectUpdate all pinned = some c) := by
  intro all pinned
  constructor
  · rw [selectUpdate]
    by_cases hemp : all.isEmpty
    · simp only [hemp, if_true]
      simp only [List.isEmpty_iff] at hemp
      simp [hemp]
    · simp only [hemp, Bool.false_eq_true, if_false]
      simp only [List.isEmpty_iff] at hemp
      cases hs : surviving all pinned with
      | nil => simp [hemp]
      | cons c rest =>
        by_cases hm : matchesPinned pinned c
        · simp only [hm, if_true]
          constructor
          · intro _
            exact Or.inr (Or.inr ⟨c, rest, rfl, hm⟩)
          · intro _
            trivial
        · simp only [hm, Bool.false_eq_true, if_false]
          constructor
          · intro h
            exact absurd h (by simp)
          · rintro (h | h | ⟨c', rest', he, hm'⟩)
            · exact absurd h hemp
            · exact absurd h (by simp)
            · rw [List.cons.injEq] at he
              rw [he.1] at hm
              exact absurd hm' (by simp [hm])
  · intro c rest hs hm
    rw [selectUpdate]
    have hemp : all.isEmpty = false := by
      cases hall : all with
      | nil => rw [hall] at hs; rw [surviving] at hs; simp at hs
      | cons a as => simp
    rw [hemp]
    simp only [Bool.false_eq_true, if_false]
    rw [hs]
    simp [hm]

/-- C3 witness: concrete instances of every disjunct — empty list, all
candidates filtered out, up-to-date by id and by version string, and a
genuine update. -/
theorem selector_none_characterization_witness :
    selectUpdate [] "1.0.0" = none ∧
    selectUpdate [⟨"b1", "2.0-beta", some "beta"⟩] "x" = none ∧
    selectUpdate [⟨"abc123", "1.0.0", some "release"⟩] "abc123" = none ∧
    selectUpdate [⟨"abc123", "1.0.0", some "release"⟩] "1.0.0" = none ∧
    selectUpdate [⟨"r2", "2.0.0", some "release"⟩] "1.0.0" =
      some ⟨"r2", "2.0.0", some "release"⟩ := by
  refine ⟨by decide, by decide, by decide, by decide, ?_⟩
  exact (selector_none_characterization [⟨"r2", "2.0.0", some "release"⟩] "1.0.0").2
    ⟨"r2", "2.0.0", some "release"⟩ [] (by decide) (by decide)


theorem processLine_skip (props : List (List Char × List Char)) (line : List Char)
    (h1 : pyStrip line ≠ []) (h2 : (pyStrip line).head? ≠ some '#')
    (h3 : '=' ∉ line) : processLine props line = props := by
  have h3' : (pyStrip line).contains '=' = false := by
    have : '=' ∉ pyStrip line := fun hmem => h3 (mem_pyStrip hmem)
    simpa using this
  rw [processLine]
  simp only [h1, if_neg, h2, h3']
  simp [h1, h2, h3']

/-- C9: a non-blank, non-comment input line containing no `=` contributes
nothing to the parsed properties: the reader's fold over the lines is
unchanged by deleting such a line, so no entry (in particular no key with an
empty value) is produced for it and no error is raised (the reader is a
total function). -/
theorem reader_skips_line_without_equals :
    ∀ (ls1 ls2 : List (List Char)) (line : List Char),
      pyStrip line ≠ [] →
      (pyStrip line).head? ≠ some '#' →
      '=' ∉ line →
      readPropsOf (ls1 ++ line :: ls2) = readPropsOf (ls1 ++ ls2) := by
  intro ls1 ls2 line h1 h2 h3
  rw [readPropsOf, readPropsOf, List.foldl_append, List.foldl_append, List.foldl_cons,
    processLine_skip _ line h1 h2 h3]

/-- C9 witness: dropping the stray line `"no equals here"` from a concrete
file leaves the parsed properties unchanged. -/
theorem reader_skips_line_without_equals_witness :
    readPropsOf [("a=1").toList, ("no equals here").toList, ("b=2").toList] =
      readPropsOf [("a=1").toList, ("b=2").toList] :=
  reader_skips_line_without_equals [("a=1").toList] [("b=2").toList]
    ("no equals here").toList (by decide) (by decide) (by decide)


/-- C6: if no line of the file matches the key pattern, the write leaves the
text byte-identical (and, being a total function, raises no error). -/
theorem write_absent_key_identity :
    ∀ (key new_value text : List Char),
      (∀ line ∈ splitKeep text, matchesKeyLine key line = false) →
      write_gradle_property key new_value text = text := by
  intro key nv text h
  have hnone : (splitKeep text).findIdx? (fun line => matchesKeyLine key line) = none :=
    List.findIdx?_eq_none_iff.mpr h
  rw [write_gradle_property]
  simp only [hnone]
  exact join_splitKeep text

/-- C6 witness: writing the absent key "nonexistent" leaves a concrete
two-key file (with a comment and a blank line) byte-identical. -/
theorem write_absent_key_identity_witness :
    write_gradle_property ("nonexistent").toList ("value").toList
        ("# header\na=1\n\nb=2\n").toList = ("# header\na=1\n\nb=2\n").toList :=
  write_absent_key_identity ("nonexistent").toList ("value").toList
    ("# header\na=1\n\nb=2\n").toList (by decide)

theorem findIdx?_spec {α : Type} (p : α → Bool) :
    ∀ (l : List α) (i : Nat), l.findIdx? p = some i →
      ∃ hi : i < l.length, p (l.get ⟨i, hi⟩) = true ∧
        ∀ (j : Nat) (hj : j < l.length), j < i → p (l.get ⟨j, hj⟩) = false := by
  intro l
  induction l with
  | nil => intro i h; simp [List.findIdx?] at h
  | cons x xs ih =>
    intro i h
    rw [List.findIdx?_cons] at h
    by_cases hp : p x
    · rw [if_pos hp] at h
      cases h
      exact ⟨by simp, hp, fun j hj hji => absurd hji (Nat.not_lt_zero j)⟩
    · rw [if_neg hp, List.findIdx?_succ] at h
      cases hfind : xs.findIdx? p with
      | none => rw [hfind] at h; simp at h
      | some i' =>
        rw [hfind] at h
        have hii : i = i' + 1 := by simpa using h.symm
        subst hii
        obtain ⟨hi', hp', hfirst⟩ := ih i' hfind
        refine ⟨by simpa using Nat.succ_lt_succ hi', by simpa using hp', ?_⟩
        intro j hj hji
        cases j with
        | zero => simpa using hp
        | succ j' =>
          have hj' : j' < xs.length := by simpa using hj
          have := hfirst j' hj' (Nat.lt_of_succ_lt_succ hji)
          simpa using this

theorem flatten_eq_parts {α : Type} (ls : List (List α)) (i : Nat)
    (hi : i < ls.length) :
    ls.flatten = (ls.take i).flatten ++ ls.get ⟨i, hi⟩ ++ (ls.drop (i + 1)).flatten := by
  conv_lhs => rw [← List.take_append_drop i ls]
  rw [List.flatten_append, List.drop_eq_getElem_cons hi, List.flatten_cons,
    List.get_eq_getElem, List.append_assoc]

theorem flatten_set_eq {α : Type} (ls : List (List α)) (i : Nat) (x : List α)
    (hi : i < ls.length) :
    (ls.set i x).flatten = (ls.take i).flatten ++ x ++ (ls.drop (i + 1)).flatten := by
  rw [List.set_eq_take_cons_drop x hi, List.flatten_append, List.flatten_cons,
    List.append_assoc]

theorem write_eq_parts (key new_value text : List Char) (i : Nat)
    (h : (splitKeep text).findIdx? (fun line => matchesKeyLine key line) = some i) :
    write_gradle_property key new_value text =
      ((splitKeep text).take i).flatten ++
        (key ++ '=' :: (new_value ++ detect_line_ending text)) ++
        ((splitKeep text).drop (i + 1)).flatten := by
  obtain ⟨hi, _, _⟩ := findIdx?_spec (fun line => matchesKeyLine key line) (splitKeep text) i h
  rw [write_gradle_property]
  simp only [h]
  exact flatten_set_eq (splitKeep text) i _ hi


/-- C5 counterexample: in the file `"  key=old\n"` the first line's key,
ignoring the leading spaces before the `=`, is exactly `key`; the claim says
that line is replaced by `key=new` plus the line ending, but the write
(whose pattern `^{key}\s*=` anchors the key at the very start of the line)
returns the file unchanged. -/
theorem write_leading_space_cex :
    write_gradle_property ("key").toList ("new").toList ("  key=old\n").toList =
        ("  key=old\n").toList ∧
    write_gradle_property ("key").toList ("new").toList ("  key=old\n").toList ≠
        ("key=new\n").toList :=
  ⟨by decide, by decide⟩

/-- C5 amended: the write locates the first line that STARTS with the key
(no leading whitespace admitted), ignoring only trailing spaces between the
key and the `=`; it replaces that whole line with `key=new_value` terminated
by the detected dominant line ending, and leaves every line before and after
it byte-for-byte unchanged (later duplicate occurrences of the key are left
alone).  `i` is the replaced line's index: no earlier line matches, line `i`
matches, the input text decomposes around line `i`, and the output is the
same decomposition with line `i` replaced. -/
theorem write_first_match_replaced :
    ∀ (key new_value text : List Char) (i : Nat),
      (splitKeep text).findIdx? (fun line => matchesKeyLine key line) = some i →
      ∃ hi : i < (splitKeep text).length,
        matchesKeyLine key ((splitKeep text).get ⟨i, hi⟩) = true ∧
        (∀ (j : Nat) (hj : j < (splitKeep text).length), j < i →
          matchesKeyLine key ((splitKeep text).get ⟨j, hj⟩) = false) ∧
        text = ((splitKeep text).take i).flatten ++ (splitKeep text).get ⟨i, hi⟩ ++
          ((splitKeep text).drop (i + 1)).flatten ∧
        write_gradle_property key new_value text =
          ((splitKeep text).take i).flatten ++
            (key ++ '=' :: (new_value ++ detect_line_ending text)) ++
            ((splitKeep text).drop (i + 1)).flatten := by
  intro key nv text i h
  obtain ⟨hi, hp, hfirst⟩ := findIdx?_spec (fun line => matchesKeyLine key line)
    (splitKeep text) i h
  refine ⟨hi, hp, hfirst, ?_, write_eq_parts key nv text i h⟩
  conv_lhs => rw [← join_splitKeep text]
  exact flatten_eq_parts (splitKeep text) i hi

/-- C5 witness: in `"# c\nkey = old\nother=1\nkey=dup\n"` the first
`key`-line (index 1, with spaces before the `=`) is rewritten to
`key=new_value` with LF, the comment line, the `other` line and the later
duplicate `key` line staying byte-for-byte intact. -/
theorem write_first_match_replaced_witness :
    (splitKeep ("# c\nkey = old\nother=1\nkey=dup\n").toList).findIdx?
        (fun line => matchesKeyLine ("key").toList line) = some 1 ∧
    write_gradle_property ("key").toList ("new_value").toList
        ("# c\nkey = old\nother=1\nkey=dup\n").toList =
      ("# c\nkey=new_value\nother=1\nkey=dup\n").toList := by
  refine ⟨by decide, ?_⟩
  obtain ⟨hi, _, _, _, hw⟩ := write_first_match_replaced ("key").toList
    ("new_value").toList ("# c\nkey = old\nother=1\nkey=dup\n").toList 1 (by decide)
  rw [hw]
  decide


theorem hasCRLF_cons_iff (c : Char) (l : List Char) :
    hasCRLF (c :: l) = true ↔ (c = '\r' ∧ l.head? = some '\n') ∨ hasCRLF l = true := by
  cases l with
  | nil => simp [hasCRLF]
  | cons d t => simp [hasCRLF]

theorem hasCRLF_append_iff (a b : List Char) :
    hasCRLF (a ++ b) = true ↔
      hasCRLF a = true ∨ hasCRLF b = true ∨
        (a.getLast? = some '\r' ∧ b.head? = some '\n') := by
  induction a with
  | nil => simp [hasCRLF]
  | cons c a' ih =>
    rw [List.cons_append, hasCRLF_cons_iff, ih, hasCRLF_cons_iff]
    cases a' with
    | nil =>
      simp only [List.nil_append, List.head?_nil, List.getLast?_singleton, hasCRLF,
        List.getLast?_nil, Option.some.injEq, Bool.false_eq_true]
      tauto
    | cons d t =>
      simp only [List.cons_append, List.head?_cons, List.getLast?_cons_cons]
      tauto

theorem hasCRLF_append_false (a b : List Char) :
    hasCRLF (a ++ b) = false ↔
      hasCRLF a = false ∧ hasCRLF b = false ∧
        ¬(a.getLast? = some '\r' ∧ b.head? = some '\n') := by
  rw [← Bool.not_eq_true (hasCRLF (a ++ b)), hasCRLF_append_iff,
    ← Bool.not_eq_true (hasCRLF a), ← Bool.not_eq_true (hasCRLF b)]
  tauto

theorem hasCRLF_of_no_cr {l : List Char} (h : ∀ c ∈ l, c ≠ '\r') :
    hasCRLF l = false := by
  induction l with
  | nil => simp [hasCRLF]
  | cons c t ih =>
    have ih' := ih (fun x hx => h x (List.mem_cons_of_mem c hx))
    rw [← Bool.not_eq_true (hasCRLF (c :: t)), hasCRLF_cons_iff]
    rintro (⟨hr, _⟩ | ht)
    · exact h c (List.mem_cons_self c t) hr
    · rw [ih'] at ht
      exact Bool.false_ne_true ht

theorem countCRLF_le_count : ∀ l : List Char, countCRLF l ≤ l.count '\n' := by
  intro l
  induction l using countCRLF.induct with
  | case1 => simp [countCRLF]
  | case2 c => simp [countCRLF]
  | case3 a b rest h ih =>
    obtain ⟨ha, hb⟩ := h
    subst ha hb
    rw [countCRLF, if_pos ⟨rfl, rfl⟩]
    simp only [List.count_cons]
    simp
    omega
  | case4 a b rest h ih =>
    rw [countCRLF, if_neg h]
    calc countCRLF (b :: rest) ≤ (b :: rest).count '\n' := ih
      _ ≤ ((a :: b :: rest)).count '\n' := by
          simp only [List.count_cons]
          split <;> omega

theorem countCRLF_eq_zero_of_no_crlf : ∀ l : List Char, hasCRLF l = false →
    countCRLF l = 0 := by
  intro l
  induction l using countCRLF.induct with
  | case1 => intro _; rfl
  | case2 c => intro _; rfl
  | case3 a b rest h ih =>
    obtain ⟨ha, hb⟩ := h
    subst ha hb
    intro hfalse
    rw [hasCRLF] at hfalse
    simp at hfalse
  | case4 a b rest h ih =>
    intro hfalse
    rw [hasCRLF] at hfalse
    rw [countCRLF, if_neg h]
    apply ih
    cases hcb : hasCRLF (b :: rest) with
    | false => rfl
    | true => rw [hcb] at hfalse; simp at hfalse

theorem detect_eq_lf_of_no_crlf {text : List Char} (h : hasCRLF text = false) :
    detect_line_ending text = ['\n'] := by
  have h0 := countCRLF_eq_zero_of_no_crlf text h
  rw [detect_line_ending]
  simp [h0]


/-- C7: the dominant line ending is `"\r\n"` only on a strict majority of
`"\r\n"` occurrences over remaining `"\n"` occurrences — ties give `"\n"`,
and a text with zero newlines gives `"\n"`; consequently, in a
CRLF-majority file the rewritten line is terminated with `"\r\n"`, and a
rewrite in a file without `"\r\n"` (keys and values being free of line-break
characters) introduces no `"\r\n"`. -/
theorem line_ending_policy :
    ∀ (text key new_value : List Char),
      (countCRLF text = text.count '\n' - countCRLF text →
        detect_line_ending text = ['\n']) ∧
      (text.count '\n' = 0 → detect_line_ending text = ['\n']) ∧
      (countCRLF text > text.count '\n' - countCRLF text →
        detect_line_ending text = ['\r', '\n'] ∧
        ∀ i, (splitKeep text).findIdx? (fun line => matchesKeyLine key line) = some i →
          write_gradle_property key new_value text =
            ((splitKeep text).take i).flatten ++
              (key ++ '=' :: (new_value ++ ['\r', '\n'])) ++
              ((splitKeep text).drop (i + 1)).flatten) ∧
      (hasCRLF text = false →
        (∀ c ∈ key, c ≠ '\r' ∧ c ≠ '\n') →
        (∀ c ∈ new_value, c ≠ '\r') →
        hasCRLF (write_gradle_property key new_value text) = false) := by
  intro text key new_value
  refine ⟨?_, ?_, ?_, ?_⟩
  · intro h
    have hn : ¬ (countCRLF text > text.count '\n' - countCRLF text) := by omega
    simp [detect_line_ending, hn]
  · intro h
    have hle := countCRLF_le_count text
    have hn : ¬ (countCRLF text > text.count '\n' - countCRLF text) := by omega
    simp [detect_line_ending, hn]
  · intro h
    have hd : detect_line_ending text = ['\r', '\n'] := by
      simp [detect_line_ending, h]
    refine ⟨hd, ?_⟩
    intro i hi
    rw [write_eq_parts key new_value text i hi, hd]
  · intro h0 hkey hnv
    cases hfind : (splitKeep text).findIdx? (fun line => matchesKeyLine key line) with
    | none =>
      rw [write_gradle_property]
      simp only [hfind]
      rw [join_splitKeep]
      exact h0
    | some i =>
      have heol := detect_eq_lf_of_no_crlf h0
      have hw := write_eq_parts key new_value text i hfind
      rw [heol] at hw
      obtain ⟨hi, _, _⟩ := findIdx?_spec (fun line => matchesKeyLine key line)
        (splitKeep text) i hfind
      have htext : text = ((splitKeep text).take i).flatten ++
          (splitKeep text).get ⟨i, hi⟩ ++ ((splitKeep text).drop (i + 1)).flatten := by
        conv_lhs => rw [← join_splitKeep text]
        exact flatten_eq_parts (splitKeep text) i hi
      have h0' : hasCRLF (((splitKeep text).take i).flatten ++
          ((splitKeep text).get ⟨i, hi⟩ ++
            ((splitKeep text).drop (i + 1)).flatten)) = false := by
        rw [← List.append_assoc, ← htext]
        exact h0
      rw [hasCRLF_append_false] at h0'
      obtain ⟨hAf, hLB, _⟩ := h0'
      rw [hasCRLF_append_false] at hLB
      obtain ⟨_, hBf, _⟩ := hLB
      have hmidf : hasCRLF (key ++ '=' :: (new_value ++ ['\n'])) = false := by
        apply hasCRLF_of_no_cr
        intro c hc
        simp only [List.mem_append, List.mem_cons] at hc
        rcases hc with hck | hceq | hcv | hcl
        · exact (hkey c hck).1
        · subst hceq; decide
        · exact hnv c hcv
        · have hcn : c = '\n' := by simpa using hcl
          subst hcn; decide
      have hmid_last : (key ++ '=' :: (new_value ++ ['\n'])).getLast? = some '\n' := by
        rw [show key ++ '=' :: (new_value ++ ['\n']) =
          (key ++ '=' :: new_value) ++ ['\n'] by simp]
        exact List.getLast?_concat _
      obtain ⟨x, hxhead, hxne⟩ :
          ∃ x, (key ++ '=' :: (new_value ++ ['\n'])).head? = some x ∧ x ≠ '\n' := by
        cases key with
        | nil => exact ⟨'=', by simp, by decide⟩
        | cons k ks =>
          exact ⟨k, by simp, (hkey k (List.mem_cons_self k ks)).2⟩
      rw [hw, List.append_assoc, hasCRLF_append_false]
      refine ⟨hAf, ?_, ?_⟩
      · rw [hasCRLF_append_false]
        refine ⟨hmidf, hBf, ?_⟩
        rintro ⟨hlast, _⟩
        rw [hmid_last] at hlast
        simp at hlast
      · rintro ⟨_, hhead⟩
        rw [List.head?_append, hxhead] at hhead
        simp only [Option.or_some] at hhead
        rw [Option.some.injEq] at hhead
        exact hxne hhead

/-- C7 witness: a tied file and a newline-free file detect `"\n"`, a
CRLF-majority file detects `"\r\n"`, and rewriting a key in an LF-only file
leaves the result free of `"\r\n"`. -/
theorem line_ending_policy_witness :
    detect_line_ending ("a\r\nb\n").toList = ['\n'] ∧
    detect_line_ending ("abc").toList = ['\n'] ∧
    detect_line_ending ("a=1\r\nb=2\r\n").toList = ['\r', '\n'] ∧
    hasCRLF (write_gradle_property ("a").toList ("99").toList
      ("a=1\nb=2\n").toList) = false :=
  ⟨(line_ending_policy ("a\r\nb\n").toList [] []).1 (by decide),
   (line_ending_policy ("abc").toList [] []).2.1 (by decide),
   ((line_ending_policy ("a=1\r\nb=2\r\n").toList ("a").toList
     ("99").toList).2.2.1 (by decide)).1,
   (line_ending_policy ("a=1\nb=2\n").toList ("a").toList ("99").toList).2.2.2
     (by decide) (by decide) (by decide)⟩


theorem stripPrefixChars_some : ∀ {p l r : List Char},
    stripPrefixChars p l = some r → l = p ++ r := by
  intro p
  induction p with
  | nil =>
    intro l r h
    rw [stripPrefixChars] at h
    cases h
    rfl
  | cons x ps ih =>
    intro l r h
    cases l with
    | nil => rw [stripPrefixChars] at h; cases h
    | cons c cs =>
      rw [stripPrefixChars] at h
      by_cases hx : x = c
      · rw [if_pos hx] at h
        rw [List.cons_append, ← hx, ih h]
      · rw [if_neg hx] at h
        cases h

theorem stripPrefixChars_refl_append : ∀ (p t : List Char),
    stripPrefixChars p (p ++ t) = some t := by
  intro p
  induction p with
  | nil => intro t; rfl
  | cons x ps ih =>
    intro t
    rw [List.cons_append, stripPrefixChars, if_pos rfl, ih]

theorem stripPrefixChars_isSome_iff {p l : List Char} :
    (stripPrefixChars p l).isSome = true ↔ ∃ t, l = p ++ t := by
  constructor
  · intro h
    cases hs : stripPrefixChars p l with
    | none => rw [hs] at h; simp at h
    | some r => exact ⟨r, stripPrefixChars_some hs⟩
  · rintro ⟨t, ht⟩
    rw [ht, stripPrefixChars_refl_append]
    rfl

theorem endsWithChars_iff {suf l : List Char} :
    endsWithChars suf l = true ↔ suf <:+ l := by
  rw [endsWithChars, stripPrefixChars_isSome_iff]
  constructor
  · rintro ⟨t, ht⟩
    refine ⟨t.reverse, ?_⟩
    have := congrArg List.reverse ht
    simpa using this.symm
  · rintro ⟨a, ha⟩
    exact ⟨a.reverse, by rw [← ha]; simp⟩

theorem hasSub_exists : ∀ {l pat : List Char}, hasSub pat l = true →
    ∃ a c, l = a ++ pat ++ c := by
  intro l
  induction l with
  | nil =>
    intro pat h
    rw [hasSub] at h
    cases pat with
    | nil => exact ⟨[], [], rfl⟩
    | cons x ps => rw [stripPrefixChars] at h; simp at h
  | cons x rest ih =>
    intro pat h
    rw [hasSub, Bool.or_eq_true] at h
    rcases h with h | h
    · cases hs : stripPrefixChars pat (x :: rest) with
      | none => rw [hs] at h; simp at h
      | some r => exact ⟨[], r, by rw [List.nil_append]; exact stripPrefixChars_some hs⟩
    · obtain ⟨a, c, hac⟩ := ih h
      exact ⟨x :: a, c, by rw [hac]; rfl⟩

theorem pyRstrip_concat_space {l : List Char} {c : Char} (h : pyIsSpace c = true) :
    pyRstrip (l ++ [c]) = pyRstrip l := by
  rw [pyRstrip, pyRstrip, List.reverse_append]
  simp [List.dropWhile_cons_of_pos h]

theorem pyRstrip_of_last_not_space {l : List Char} {c : Char}
    (hl : l.getLast? = some c) (hc : pyIsSpace c = false) : pyRstrip l = l := by
  rw [pyRstrip]
  cases hrev : l.reverse with
  | nil =>
    rw [← List.head?_reverse, hrev] at hl
    cases hl
  | cons d t =>
    rw [← List.head?_reverse, hrev] at hl
    have hdc : d = c := by simpa using hl
    subst hdc
    rw [List.dropWhile_cons_of_neg (by rw [hc]; exact Bool.false_ne_true), ← hrev,
      List.reverse_reverse]

theorem getLast?_append_of_getLast? {l t : List Char} {z : Char}
    (h : t.getLast? = some z) : (l ++ t).getLast? = some z := by
  rw [List.getLast?_append, h]
  rfl

theorem single_newline_decomp {r a q c : List Char} (hr : '\n' ∉ r) (hq : '\n' ∉ q)
    (h : r ++ ['\n'] = a ++ q ++ '\n' :: c) : c = [] ∧ r = a ++ q := by
  have hcount : (r ++ ['\n']).count '\n' = 1 := by
    rw [List.count_append, List.count_eq_zero.mpr hr]
    rfl
  rw [h] at hcount
  have hcc : '\n' ∉ c := by
    rw [List.count_append, List.count_append, List.count_eq_zero.mpr hq,
      List.count_cons] at hcount
    rw [← List.count_eq_zero (a := '\n')]
    simp at hcount
    omega
  have hc0 : c = [] := by
    cases hc : c with
    | nil => rfl
    | cons z zs =>
      exfalso
      have h1 : ('\n' :: z :: zs).getLast?.or (a ++ q).getLast? = some '\n' := by
        have hgl : (r ++ ['\n']).getLast? = some '\n' := List.getLast?_concat r
        rw [h, hc, List.getLast?_append] at hgl
        exact hgl
      cases hzz : (z :: zs).getLast? with
      | none =>
        rw [List.getLast?_eq_none_iff] at hzz
        cases hzz
      | some w =>
        have hw : w = '\n' := by
          rw [List.getLast?_cons_cons, hzz] at h1
          simpa using h1
        subst hw
        have hwmem : '\n' ∈ z :: zs := List.mem_of_mem_getLast? hzz
        rw [hc] at hcc
        exact hcc hwmem
  subst hc0
  refine ⟨rfl, ?_⟩
  have h' : r ++ ['\n'] = (a ++ q) ++ ['\n'] := by rw [h]
  exact List.append_cancel_right h'

/-- C10 counterexample: querying branch `x` against a remote listing only the
branch `xyrefs/heads/x` — a strict extension of `x` (it is `x` followed by
the nonempty suffix `yrefs/heads/x`) — reports the branch as existing,
because the line happens to end with the substring `refs/heads/x` followed
by a newline. -/
theorem branch_extension_cex :
    branch_exists_on_remote ("x").toList
        ("0000\trefs/heads/xyrefs/heads/x\n").toList = true ∧
    ("xyrefs/heads/x").toList = ("x").toList ++ ("yrefs/heads/x").toList ∧
    ("yrefs/heads/x").toList ≠ [] :=
  ⟨by decide, by decide, by decide⟩

/-- C10 amended: empty output reports false; the check reports true only
when the output, right-trimmed, has the full ref `refs/heads/<branch>`
as a suffix of some newline-terminated prefix or of the whole output — so a
remote branch whose name strictly extends the queried name is reported as
existing only when its full ref still ends in `refs/heads/<branch>`; for a
single-ref output whose ref does NOT end in `refs/heads/<branch>` (e.g.
`.../sodium-extra` when querying `.../sodium`) the check reports false. -/
theorem branch_exists_characterization :
    (∀ b : List Char, branch_exists_on_remote b [] = false) ∧
    (∀ b out : List Char, branch_exists_on_remote b out = true →
      (∃ a c, out = a ++ ((("refs/heads/").toList ++ b) ++ '\n' :: c)) ∨
        (("refs/heads/").toList ++ b) <:+ pyRstrip out) ∧
    (∀ b sha ext : List Char,
      '\n' ∉ sha → '\n' ∉ b → ext ≠ [] →
      (∀ c ∈ ext, pyIsSpace c = false) →
      ¬ (("refs/heads/").toList ++ b) <:+ (("refs/heads/").toList ++ b ++ ext) →
      branch_exists_on_remote b
        (sha ++ '\t' :: (("refs/heads/").toList ++ b ++ ext ++ ['\n'])) = false) := by
  refine ⟨?_, ?_, ?_⟩
  · intro b
    rw [branch_exists_on_remote]
    have h1 : hasSub ((("refs/heads/").toList ++ b) ++ ['\n']) [] = false := by
      rw [hasSub]
      cases hp : ("refs/heads/").toList ++ b ++ ['\n'] with
      | nil => exact absurd hp (by simp)
      | cons x t => rfl
    have h2 : endsWithChars (("refs/heads/").toList ++ b) (pyRstrip []) = false := by
      rw [show pyRstrip [] = [] from rfl, endsWithChars]
      cases hp : (("refs/heads/").toList ++ b).reverse with
      | nil =>
        exfalso
        rw [List.reverse_eq_nil_iff] at hp
        exact absurd hp (by simp [show ("refs/heads/").toList = 'r' :: ("efs/heads/").toList from rfl])
      | cons x t => rfl
    rw [h1, h2]
    rfl
  · intro b out h
    rw [branch_exists_on_remote, Bool.or_eq_true] at h
    rcases h with h | h
    · obtain ⟨a, c, hac⟩ := hasSub_exists h
      left
      refine ⟨a, c, ?_⟩
      rw [hac]
      simp
    · right
      exact endsWithChars_iff.mp h
  · intro b sha ext hsha hb hext hsp hnotsuf
    have hrefs : '\n' ∉ ("refs/heads/").toList := by decide
    have hextn : '\n' ∉ ext := fun hmem => by
      have := hsp '\n' hmem
      rw [show pyIsSpace '\n' = true from rfl] at this
      cases this
    have hrn : '\n' ∉ sha ++ '\t' :: (("refs/heads/").toList ++ b ++ ext) := by
      intro hmem
      simp only [List.mem_append, List.mem_cons] at hmem
      rcases hmem with h | h | (h | h) | h
      · exact hsha h
      · exact (by decide : ('\n' : Char) ≠ '\t') h
      · exact hrefs h
      · exact hb h
      · exact hextn h
    have hsuffix : (("refs/heads/").toList ++ b) <:+
        (sha ++ '\t' :: (("refs/heads/").toList ++ b ++ ext)) → False := by
      intro hsuf
      have hs2 : (("refs/heads/").toList ++ b ++ ext) <:+
          (sha ++ '\t' :: (("refs/heads/").toList ++ b ++ ext)) :=
        ⟨sha ++ ['\t'], by simp⟩
      have hlen : (("refs/heads/").toList ++ b).length ≤
          (("refs/heads/").toList ++ b ++ ext).length := by
        simp
      exact hnotsuf (List.suffix_of_suffix_length_le hsuf hs2 hlen)
    rw [branch_exists_on_remote]
    have hshape : sha ++ '\t' :: (("refs/heads/").toList ++ b ++ ext ++ ['\n']) =
        (sha ++ '\t' :: (("refs/heads/").toList ++ b ++ ext)) ++ ['\n'] := by
      simp
    have h1 : hasSub ((("refs/heads/").toList ++ b) ++ ['\n'])
        (sha ++ '\t' :: (("refs/heads/").toList ++ b ++ ext ++ ['\n'])) = false := by
      cases hh : hasSub ((("refs/heads/").toList ++ b) ++ ['\n'])
          (sha ++ '\t' :: (("refs/heads/").toList ++ b ++ ext ++ ['\n'])) with
      | false => rfl
      | true =>
        exfalso
        obtain ⟨a, c, hac⟩ := hasSub_exists hh
        rw [hshape] at hac
        have hbq : '\n' ∉ ("refs/heads/").toList ++ b := by
          intro hmem
          rcases List.mem_append.mp hmem with h | h
          · exact hrefs h
          · exact hb h
        have hdec := @single_newline_decomp (sha ++ '\t' :: (("refs/heads/").toList ++ b ++ ext))
          a (("refs/heads/").toList ++ b) c hrn hbq (by rw [hac]; simp)
        exact hsuffix ⟨a, hdec.2.symm⟩
    have h2 : endsWithChars (("refs/heads/").toList ++ b)
        (pyRstrip (sha ++ '\t' :: (("refs/heads/").toList ++ b ++ ext ++ ['\n']))) = false := by
      rw [hshape, pyRstrip_concat_space (show pyIsSpace '\n' = true from rfl)]
      have hlast : ∃ z, (sha ++ '\t' :: (("refs/heads/").toList ++ b ++ ext)).getLast? =
          some z ∧ pyIsSpace z = false := by
        cases hel : ext.getLast? with
        | none =>
          exfalso
          rw [List.getLast?_eq_none_iff] at hel
          exact hext hel
        | some z =>
          refine ⟨z, ?_, hsp z (List.mem_of_mem_getLast? hel)⟩
          have e1 : ((("refs/heads/").toList ++ b) ++ ext).getLast? = some z :=
            getLast?_append_of_getLast? hel
          have e2 : ('\t' :: ((("refs/heads/").toList ++ b) ++ ext)).getLast? = some z := by
            rw [show ('\t' :: ((("refs/heads/").toList ++ b) ++ ext)) =
              ['\t'] ++ ((("refs/heads/").toList ++ b) ++ ext) from rfl]
            exact getLast?_append_of_getLast? e1
          exact getLast?_append_of_getLast? e2
      obtain ⟨z, hz, hzs⟩ := hlast
      rw [pyRstrip_of_last_not_space hz hzs]
      cases he : endsWithChars (("refs/heads/").toList ++ b)
          (sha ++ '\t' :: (("refs/heads/").toList ++ b ++ ext)) with
      | false => rfl
      | true =>
        exfalso
        exact hsuffix (endsWithChars_iff.mp he)
    rw [h1, h2]
    rfl


/-- C10 witness: empty output yields false; a true result on a concrete
output comes with a newline-terminated full ref ending in the expected ref;
and the claim's own example — remote branch `modrinth-deps/sodium-extra`
queried as `modrinth-deps/sodium` — is not reported as existing. -/
theorem branch_exists_characterization_witness :
    branch_exists_on_remote ("b").toList [] = false ∧
    ((∃ a c, ("0000\trefs/heads/b\n").toList =
        a ++ ((("refs/heads/").toList ++ ("b").toList) ++ '\n' :: c)) ∨
      (("refs/heads/").toList ++ ("b").toList) <:+
        pyRstrip ("0000\trefs/heads/b\n").toList) ∧
    branch_exists_on_remote ("modrinth-deps/sodium").toList
      (("0000").toList ++ '\t' :: (("refs/heads/").toList ++
        ("modrinth-deps/sodium").toList ++ ("-extra").toList ++ ['\n'])) = false ∧
    ("0000").toList ++ '\t' :: (("refs/heads/").toList ++
        ("modrinth-deps/sodium").toList ++ ("-extra").toList ++ ['\n']) =
      ("0000\trefs/heads/modrinth-deps/sodium-extra\n").toList :=
  ⟨branch_exists_characterization.1 ("b").toList,
   branch_exists_characterization.2.1 ("b").toList ("0000\trefs/heads/b\n").toList
     (by decide),
   branch_exists_characterization.2.2 ("modrinth-deps/sodium").toList ("0000").toList
     ("-extra").toList (by decide) (by decide) (by decide) (by decide) (by decide),
   by decide⟩


/-- `safe_checkout` (main.py lines 191-197): run `git checkout -f base` with
the result captured and ignored — the post-state of the checkout attempt is
used whether or not the command succeeded, and no failure propagates.
`chk` models the checkout command: it returns the resulting repository state
and a success flag. -/
def safe_checkout {S : Type} (chk : S → S × Bool) (s : S) : S :=
  (chk s).1

/-- The result of one whole run of `main` (main.py lines 378-400):
final repository state, the `updated` counter, the dependencies attempted in
order, and the process exit status. -/
structure RunResult (S D : Type) where
  finalState : S
  updated : Nat
  attempted : List D
  exitCode : Nat
deriving DecidableEq

/-- The dependency loop of `main` (main.py lines 378-397): each `step d s`
models `process_dependency` on dependency `d` in state `s`, returning the
post-state and either `Except.ok b` (returned normally, `b` = PR
created/updated) or `Except.error e` (raised).  On an error the loop prints,
restores the base branch via `safe_checkout`, and continues with the next
dependency. -/
def mainLoop {S D E : Type} (step : D → S → S × Except E Bool)
    (chk : S → S × Bool) : List D → S → S × Nat × List D
  | [], s => (s, 0, [])
  | d :: ds, s =>
    match step d s with
    | (s1, Except.ok b) =>
      let r := mainLoop step chk ds s1
      (r.1, (if b then 1 else 0) + r.2.1, d :: r.2.2)
    | (s1, Except.error _) =>
      let r := mainLoop step chk ds (safe_checkout chk s1)
      (r.1, r.2.1, d :: r.2.2)

/-- A whole run of `main` (main.py lines 378-400): run the loop over every
configured dependency, print the summary, and exit with status 0 (`main`
returns normally regardless of per-dependency errors). -/
def main_run {S D E : Type} (step : D → S → S × Except E Bool)
    (chk : S → S × Bool) (deps : List D) (s : S) : RunResult S D :=
  let r := mainLoop step chk deps s
  ⟨r.1, r.2.1, r.2.2, 0⟩

/-- C8: whatever the per-dependency step and checkout command do — including
raising on every dependency — the run (1) exits with status 0, (2) attempts
every dependency in order, (3) never consults the success flag of the
best-effort restore (forcing the restore to report success changes nothing,
i.e. a restore failure is swallowed), and (4) on a step that raises, the run
equals the run on the remaining dependencies from the restored state, with
the failing dependency still recorded as attempted and no update counted
for it. -/
theorem run_survives_dependency_errors :
    ∀ {S D E : Type} (step : D → S → S × Except E Bool) (chk : S → S × Bool)
      (deps : List D) (s : S),
      (main_run step chk deps s).exitCode = 0 ∧
      (main_run step chk deps s).attempted = deps ∧
      main_run step chk deps s =
        main_run step (fun t => ((chk t).1, true)) deps s ∧
      (∀ (d : D) (ds : List D) (s1 : S) (e : E), step d s = (s1, Except.error e) →
        main_run step chk (d :: ds) s =
          { finalState := (main_run step chk ds (safe_checkout chk s1)).finalState,
            updated := (main_run step chk ds (safe_checkout chk s1)).updated,
            attempted := d :: (main_run step chk ds (safe_checkout chk s1)).attempted,
            exitCode := 0 }) := by
  intro S D E step chk deps s
  refine ⟨rfl, ?_, ?_, ?_⟩
  · show (mainLoop step chk deps s).2.2 = deps
    induction deps generalizing s with
    | nil => rfl
    | cons d ds ih =>
      rw [mainLoop]
      cases hstep : step d s with
      | mk s1 r =>
        cases r with
        | ok b => simpa using ih s1
        | error e => simpa using ih (safe_checkout chk s1)
  · show main_run step chk deps s = main_run step (fun t => ((chk t).1, true)) deps s
    rw [main_run, main_run]
    have : ∀ (l : List D) (t : S), mainLoop step chk l t =
        mainLoop step (fun u => ((chk u).1, true)) l t := by
      intro l
      induction l with
      | nil => intro t; rfl
      | cons d ds ih =>
        intro t
        rw [mainLoop, mainLoop]
        cases hstep : step d t with
        | mk s1 r =>
          cases r with
          | ok b =>
            dsimp only
            rw [ih s1]
          | error e =>
            dsimp only [safe_checkout]
            rw [ih ((chk s1).1)]
    rw [this deps s]
  · intro d ds s1 e hstep
    rw [main_run, mainLoop, hstep]
    rfl

/-- C8 witness: with a first dependency whose step raises, a restore whose
own success flag is `false` (failure swallowed), and a second dependency
that succeeds, the run attempts both dependencies in order, counts one
update, and exits 0. -/
theorem run_survives_dependency_errors_witness :
    (fun (d : Nat) (s : Nat) =>
        (s + 1, if d = 0 then (Except.error () : Except Unit Bool)
          else Except.ok true)) 0 0 = (1, Except.error ()) ∧
    main_run (fun (d : Nat) (s : Nat) =>
        (s + 1, if d = 0 then (Except.error () : Except Unit Bool)
          else Except.ok true))
      (fun s => (s * 10, false)) [0, 1] 0 =
      { finalState := 11, updated := 1, attempted := [0, 1], exitCode := 0 } := by
  constructor
  · rfl
  · have h := (run_survives_dependency_errors
      (fun (d : Nat) (s : Nat) =>
        (s + 1, if d = 0 then (Except.error () : Except Unit Bool)
          else Except.ok true))
      (fun s => (s * 10, false)) [0, 1] 0).2.2.2 0 [1] 1 () rfl
    rw [h]
    rfl


/-- The git repository state visible to `process_dependency`: the tips of the
local and remote branches (each branch tip is identified with the content of
the single tracked file, gradle.properties), the currently checked-out
branch, and the working-tree file content. -/
structure RepoState where
  localBranches : List (String × List Char)
  remoteBranches : List (String × List Char)
  head : String
  workFile : List Char
deriving DecidableEq

/-- Look up a branch tip by name (first binding wins). -/
def lookupBranch : List (String × List Char) → String → Option (List Char)
  | [], _ => none
  | (n, c) :: rest, k => if n = k then some c else lookupBranch rest k

/-- Set a branch tip: replace the existing binding or append a new one. -/
def setBranch : List (String × List Char) → String → List Char →
    List (String × List Char)
  | [], k, v => [(k, v)]
  | (n, c) :: rest, k, v =>
    if n = k then (k, v) :: rest else (n, c) :: setBranch rest k v

/-- Dict lookup `props.get(prop_key)` on the parsed properties (the first
binding is the binding, since `upsert` keeps keys unique). -/
def lookupProp : List (List Char × List Char) → List Char → Option (List Char)
  | [], _ => none
  | (k, v) :: rest, key => if k = key then some v else lookupProp rest key

/-- The branch/PR reconciliation of `process_dependency` (main.py lines
257-323), on `RepoState`; returns the new state, the returned bool, and the
number of `git commit` invocations.  Step by step:
`branch = f"modrinth-deps/{base_branch}/{slug}"` (line 258);
`git checkout base` + `git pull --ff-only origin base` (lines 261-262,
modelled as a successful fast-forward from the remote);
`branch_exists_on_remote` then `git checkout -B branch origin/base` or
`git checkout -b branch` (lines 264-270) — notice both arms leave the PR
branch tip at the freshly pulled base content, so the reset is folded;
`write_gradle_property` on the working tree (line 273); `git add` and the
staged-diff check `git diff --cached --quiet` against the branch tip, which
now equals the base tip (lines 279-283); on no difference: checkout base and
return False with zero commits (lines 284-286); otherwise commit, push
`--force-with-lease` (modelled as a successful push), reconcile the PR
(lines 304-320, no repository-state effect), checkout base and return True
(lines 288-323). -/
def reconcile (slug base : String) (prop_key new_value : List Char)
    (st : RepoState) : RepoState × Bool × Nat :=
  let branch := "modrinth-deps/" ++ base ++ "/" ++ slug
  let baseLocal := (lookupBranch st.localBranches base).getD st.workFile
  let baseC := (lookupBranch st.remoteBranches base).getD baseLocal
  let locals1 := setBranch st.localBranches base baseC
  let locals2 := setBranch locals1 branch baseC
  let newContent := write_gradle_property prop_key new_value baseC
  if newContent = baseC then
    (⟨locals2, st.remoteBranches, base, baseC⟩, false, 0)
  else
    (⟨setBranch locals2 branch newContent,
      setBranch st.remoteBranches branch newContent, base, baseC⟩, true, 1)

/-- One run of `process_dependency` (main.py lines 199-323) for a dependency
with a fixed registry response `all`: read the properties from the working
tree (the base checkout), look up the pinned value, select an update with
the stability-aware selector, and if one is selected run the branch/PR
reconciliation writing the chosen value. -/
def process_dependency (all : List ModVersion) (prop_key : List Char)
    (use_id : Bool) (slug base : String) (st : RepoState) :
    RepoState × Bool × Nat :=
  match lookupProp (read_gradle_properties st.workFile) prop_key with
  | none => (st, false, 0)
  | some current =>
    match selectUpdate all (String.mk current) with
    | none => (st, false, 0)
    | some latest =>
      reconcile slug base prop_key (get_version_value latest use_id).toList st

/-- C4 counterexample: starting from a clean checkout of `main` with
`dep_version=1.0.0` and a registry offering release 2.0.0, the first run
commits once and reports an update — and so does the SECOND run with the
identical registry response: the branch is force-reset to the base tip
before the staged-diff check, so the check sees a difference again and the
reconciler commits again (one commit, update reported) instead of taking
the no-change path with zero commits. -/
theorem reconcile_second_run_commits_cex :
    (process_dependency [⟨"r2", "2.0.0", some "release"⟩] ("dep_version").toList
        false "test-mod" "main"
        ⟨[("main", ("dep_version=1.0.0\n").toList)],
         [("main", ("dep_version=1.0.0\n").toList)], "main",
         ("dep_version=1.0.0\n").toList⟩).2 = (true, 1) ∧
    (process_dependency [⟨"r2", "2.0.0", some "release"⟩] ("dep_version").toList
        false "test-mod" "main"
        (process_dependency [⟨"r2", "2.0.0", some "release"⟩] ("dep_version").toList
          false "test-mod" "main"
          ⟨[("main", ("dep_version=1.0.0\n").toList)],
           [("main", ("dep_version=1.0.0\n").toList)], "main",
           ("dep_version=1.0.0\n").toList⟩).1).2 = (true, 1) := by
  constructor
  · decide
  · decide


/-- C4 amended: reconciliation run twice with no registry change is
CONTENT-idempotent but not commit-free: from a clean state whose base file
`g` the write actually changes, each of the two runs commits exactly once
and reports an update, the second run's final state equals the first run's
(the force-pushed branch content is unchanged), and the remote PR branch
holds the written content; the staged-diff check compares against the base
tip the branch was just force-reset to, so its no-change path (zero
commits, no update) is taken exactly when the write leaves the base content
unchanged (for example when the key is absent from the file as written). -/
theorem reconcile_twice_content_idempotent :
    (∀ (g prop_key new_value : List Char),
      write_gradle_property prop_key new_value g ≠ g →
      (reconcile "test-mod" "main" prop_key new_value
        ⟨[("main", g)], [("main", g)], "main", g⟩).2 = (true, 1) ∧
      (reconcile "test-mod" "main" prop_key new_value
        (reconcile "test-mod" "main" prop_key new_value
          ⟨[("main", g)], [("main", g)], "main", g⟩).1).2 = (true, 1) ∧
      (reconcile "test-mod" "main" prop_key new_value
        (reconcile "test-mod" "main" prop_key new_value
          ⟨[("main", g)], [("main", g)], "main", g⟩).1).1 =
        (reconcile "test-mod" "main" prop_key new_value
          ⟨[("main", g)], [("main", g)], "main", g⟩).1 ∧
      lookupBranch (reconcile "test-mod" "main" prop_key new_value
          ⟨[("main", g)], [("main", g)], "main", g⟩).1.remoteBranches
          "modrinth-deps/main/test-mod" =
        some (write_gradle_property prop_key new_value g)) ∧
    (∀ (g prop_key new_value : List Char),
      write_gradle_property prop_key new_value g = g →
      (reconcile "test-mod" "main" prop_key new_value
        ⟨[("main", g)], [("main", g)], "main", g⟩).2 = (false, 0)) := by
  constructor
  · intro g k v hne
    have hr1 : reconcile "test-mod" "main" k v
        ⟨[("main", g)], [("main", g)], "main", g⟩ =
        (⟨[("main", g), ("modrinth-deps/main/test-mod", write_gradle_property k v g)],
          [("main", g), ("modrinth-deps/main/test-mod", write_gradle_property k v g)],
          "main", g⟩, true, 1) := by
      rw [reconcile]
      simp only [lookupBranch, setBranch]
      simp [hne]
    rw [hr1]
    have hr2 : reconcile "test-mod" "main" k v
        ⟨[("main", g), ("modrinth-deps/main/test-mod", write_gradle_property k v g)],
          [("main", g), ("modrinth-deps/main/test-mod", write_gradle_property k v g)],
          "main", g⟩ =
        (⟨[("main", g), ("modrinth-deps/main/test-mod", write_gradle_property k v g)],
          [("main", g), ("modrinth-deps/main/test-mod", write_gradle_property k v g)],
          "main", g⟩, true, 1) := by
      rw [reconcile]
      simp only [lookupBranch, setBranch]
      simp [hne]
    rw [hr2]
    refine ⟨rfl, rfl, rfl, ?_⟩
    simp only [lookupBranch]
    simp
  · intro g k v heq
    rw [reconcile]
    simp only [lookupBranch, setBranch]
    simp [heq]


/-- C4 witness: with base file `dep_version=1.0.0` and new value `2.0.0`
the (first) reconciliation commits once and reports an update, while with a
key absent from the file the write is a no-op against the base tip and the
reconciliation takes the no-change path: zero commits, no update. -/
theorem reconcile_twice_content_idempotent_witness :
    (reconcile "test-mod" "main" ("dep_version").toList ("2.0.0").toList
        ⟨[("main", ("dep_version=1.0.0\n").toList)],
         [("main", ("dep_version=1.0.0\n").toList)], "main",
         ("dep_version=1.0.0\n").toList⟩).2 = (true, 1) ∧
    (reconcile "test-mod" "main" ("absent").toList ("2.0.0").toList
        ⟨[("main", ("dep_version=1.0.0\n").toList)],
         [("main", ("dep_version=1.0.0\n").toList)], "main",
         ("dep_version=1.0.0\n").toList⟩).2 = (false, 0) :=
  ⟨(reconcile_twice_content_idempotent.1 ("dep_version=1.0.0\n").toList
      ("dep_version").toList ("2.0.0").toList (by decide)).1,
   reconcile_twice_content_idempotent.2 ("dep_version=1.0.0\n").toList
      ("absent").toList ("2.0.0").toList (by decide)⟩

end UpdateModrinthDeps
